import Mathlib

/-!
# Verification of the tar-backed shell emulator (`aa.py`)

This file is a shallow embedding of the shell emulator: an in-memory
filesystem loaded from archive entries (`load_tar`), path traversal
(`traverse_path`), and the command interpreter (`execute_command` with the
operations `ls`, `cd`, `chown`, `who`, `uniq`, `exit`) together with the
append-only session log.

Modelling conventions:
* Python's nested `dict`/`str` values are the inductive type `PyVal`;
  dictionaries are association lists with unique keys (insertion order is
  the list order, matching CPython's ordered dicts).
* `os.path.join` / `os.path.normpath` are embedded with POSIX (`posixpath`)
  semantics, the convention the design document describes (forward-slash
  normalization).
* In-place mutation of a node reached by `traverse_path` becomes a
  functional update along the identical walk (`updWalk`); the tree is
  alias-free because every stored sub-dictionary is freshly created.
* Wall-clock timestamps and file I/O (`datetime.now()`, `save_log`,
  reading the tar container) are outside the embedding; `save_log` does
  not modify `log_actions`, so the log-related claims are unaffected.
  The flat entry list consumed by `load_tar` is the sequence of
  `(name, kind, content)` records provided by the archive library.
* Python exceptions escaping a command (possible only in `uniq`, when a
  file's `content` value has been overwritten by a dictionary) are the
  `crashed` flag; `exit()` raising `SystemExit` is the `exited` flag.
-/

set_option autoImplicit false

namespace ShellEmu

/-- A Python value stored in the in-memory filesystem `self.fs`:
either a text leaf (`str`) or a dictionary (`dict`).  File nodes,
directory nodes and the tree root are all `dict`s in the source. -/
inductive PyVal where
  | str : String → PyVal
  | dict : List (String × PyVal) → PyVal

/-- Entries of a Python dictionary, in insertion order. -/
abbrev Entries := List (String × PyVal)

/-- `d[k]` lookup / `k in d` membership for a Python dict. -/
def lookup : Entries → String → Option PyVal
  | [], _ => none
  | (k1, v) :: es, k => if k1 = k then some v else lookup es k

/-- `d[k] = v`: replace the value of an existing key in place, or append
a new key at the end (CPython ordered-dict assignment semantics). -/
def setKey : Entries → String → PyVal → Entries
  | [], k, v => [(k, v)]
  | (k1, v1) :: es, k, v =>
      if k1 = k then (k, v) :: es else (k1, v1) :: setKey es k v

/-- The iteration order of a dict: its keys (`for name in node`). -/
def keys (es : Entries) : List String := es.map Prod.fst

/-! ## String helpers mirroring the Python string methods used in `aa.py` -/

/-- `s.strip(c)` for a single strip character: remove every leading and
trailing occurrence of `c` (on the character list of the string). -/
def stripCharL (c : Char) (s : List Char) : List Char :=
  ((s.dropWhile (· = c)).reverse.dropWhile (· = c)).reverse

/-- `s.split(sep)` for a one-character separator, on character lists.
As in Python, `"".split(sep) = [""]` and empty fields are kept. -/
def splitOnCharL (sep : Char) : List Char → List (List Char)
  | [] => [[]]
  | c :: rest =>
      if c = sep then [] :: splitOnCharL sep rest
      else
        match splitOnCharL sep rest with
        | [] => [[c]]
        | l :: ls => (c :: l) :: ls

/-- `s.split(sep)` on strings (used with `"/"` by `load_tar` / `normpath`
and with `"\\"` by `traverse_path`). -/
def pySplit (sep : Char) (s : String) : List String :=
  (splitOnCharL sep s.data).map List.asString

/-- `s.strip(c)` on strings. -/
def pyStripChar (c : Char) (s : String) : String :=
  (stripCharL c s.data).asString

/-- `sep.join(parts)` (used with `"/"` by `normpath` and with `"\n"` by
`uniq`). -/
def joinSep (sep : String) : List String → String
  | [] => ""
  | [x] => x
  | x :: xs => x ++ sep ++ joinSep sep xs

/-- The whitespace test of `str.split()` / `str.strip()` (the ASCII and
Latin-1 characters Python treats as whitespace). -/
def pyIsSpace (c : Char) : Bool :=
  c = ' ' || c = '\t' || c = '\n' || c = '\x0d' || c = '\x0b' || c = '\x0c' ||
  c = '\x1c' || c = '\x1d' || c = '\x1e' || c = '\x1f' || c = '\x85' || c = '\xa0'

/-- Accumulating splitter for `str.split()` (split on whitespace runs,
dropping empty fields); `acc` is the current word, reversed. -/
def pyWordsAux : List Char → List Char → List (List Char)
  | [], acc => if acc.isEmpty then [] else [acc.reverse]
  | c :: rest, acc =>
      if pyIsSpace c then
        if acc.isEmpty then pyWordsAux rest [] else acc.reverse :: pyWordsAux rest []
      else pyWordsAux rest (c :: acc)

/-- `s.split()`: whitespace-separated words, no empty fields. -/
def pyWords (s : String) : List String :=
  (pyWordsAux s.data []).map List.asString

/-- `s.strip()`: remove leading and trailing whitespace. -/
def pyStrip (s : String) : String :=
  (((s.data.dropWhile (fun c => pyIsSpace c)).reverse.dropWhile
      (fun c => pyIsSpace c)).reverse).asString

/-! ## `os.path` (POSIX semantics, as the design document reads the code) -/

/-- `posixpath.join(a, b)` for exactly two arguments, as called by `cd`
and `chown`. -/
def pjoin (a b : String) : String :=
  if b.data.head? = some '/' then b
  else if a = "" ∨ a.data.getLast? = some '/' then a ++ b
  else a ++ "/" ++ b

/-- The number of initial slashes `posixpath.normpath` preserves
(one, or exactly two — POSIX gives `//` special meaning). -/
def initialSlashes (p : String) : Nat :=
  match p.data with
  | '/' :: '/' :: '/' :: _ => 1
  | '/' :: '/' :: _ => 2
  | '/' :: _ => 1
  | _ => 0

/-- The component loop of `posixpath.normpath`: drop `""` and `"."`,
resolve `".."` against the accumulated components. -/
def normComps (slashes : Nat) (comps : List String) : List String :=
  comps.foldl
    (fun acc comp =>
      if comp = "" ∨ comp = "." then acc
      else if comp ≠ ".." ∨ (slashes = 0 ∧ acc = []) ∨ acc.getLast? = some ".." then
        acc ++ [comp]
      else if acc ≠ [] then acc.dropLast
      else acc)
    []

/-- `posixpath.normpath`. -/
def normpath (p : String) : String :=
  if p = "" then "."
  else
    let slashes := initialSlashes p
    let comps := normComps slashes (pySplit '/' p)
    let path := (List.replicate slashes '/').asString ++ joinSep "/" comps
    if path = "" then "." else path

/-! ## `ShellEmulator.traverse_path` and the functional update mirror -/

/-- The loop body of `traverse_path`: follow each part, skipping empty
parts; stop with `None` when a part is absent or its value is not a
dictionary.  Note a *file* node is itself a dictionary, so the walk
descends into file nodes like any other. -/
def walk : Entries → List String → Option Entries
  | es, [] => some es
  | es, p :: ps =>
      if p = "" then walk es ps
      else
        match lookup es p with
        | some (PyVal.dict d) => walk d ps
        | _ => none

/-- `traverse_path(path)`: `path.strip("\\").split("\\")`, then walk the
parts from the root.  (The split separator is the backslash, while the
paths `cd` builds use forward slashes — the separator mismatch flagged in
the design document.) -/
def traverse_path (fs : Entries) (path : String) : Option Entries :=
  walk fs (pySplit '\\' (pyStripChar '\\' path))

/-- Rewrite the dictionary that `walk` reaches, in place: the functional
counterpart of mutating the node returned by `traverse_path` (the tree is
alias-free, so mutating that object rewrites exactly this position).
If the walk fails the tree is returned unchanged (the callers only update
after a successful `traverse_path`). -/
def updWalk : Entries → List String → (Entries → Entries) → Entries
  | es, [], f => f es
  | es, p :: ps, f =>
      if p = "" then updWalk es ps f
      else
        match lookup es p with
        | some (PyVal.dict d) => setKey es p (PyVal.dict (updWalk d ps f))
        | _ => es

/-- Functional update at the position `traverse_path fs path` reaches. -/
def updAtPath (fs : Entries) (path : String) (f : Entries → Entries) : Entries :=
  updWalk fs (pySplit '\\' (pyStripChar '\\' path)) f

/-! ## `ShellEmulator.load_tar` -/

/-- The kind of an archive member: `member.isfile()`, `member.isdir()`,
or neither (e.g. a link, for which the loader writes no leaf node). -/
inductive TarKind where
  | file : String → TarKind
  | dir : TarKind
  | other : TarKind

/-- One record of the flat archive entry sequence: `member.name` plus its
kind (with decoded text content for files). -/
structure TarEntry where
  name : String
  kind : TarKind

/-- The node written for a `file` member. -/
def fileNode (content : String) : PyVal :=
  PyVal.dict [("type", PyVal.str "file"), ("content", PyVal.str content),
              ("owner", PyVal.str "root")]

/-- The node written for a `directory` member. -/
def dirNode : PyVal :=
  PyVal.dict [("type", PyVal.str "dir"), ("owner", PyVal.str "root")]

/-- The `node.setdefault(part, {})` chain of `load_tar`, followed by a
final transformation `k` of the node the chain reaches (the leaf
assignment).  `none` models the `AttributeError`/`TypeError` the Python
loop raises when `setdefault` (or the leaf assignment, inside `k`) hits a
string value. -/
def sdWalk (v : PyVal) (parts : List String) (k : PyVal → Option PyVal) :
    Option PyVal :=
  match parts with
  | [] => k v
  | p :: ps =>
      match v with
      | PyVal.str _ => none
      | PyVal.dict es =>
          let child := (lookup es p).getD (PyVal.dict [])
          (sdWalk child ps k).map (fun c => PyVal.dict (setKey es p c))

/-- The leaf assignment of `load_tar`: `node[parts[-1]] = {...}` for
`file` and `dir` members (failing on a string node, as item assignment
does), and no write at all for other member kinds. -/
def writeLeaf (kind : TarKind) (leaf : String) (node : PyVal) : Option PyVal :=
  match kind with
  | TarKind.other => some node
  | TarKind.file c =>
      match node with
      | PyVal.dict es => some (PyVal.dict (setKey es leaf (fileNode c)))
      | PyVal.str _ => none
  | TarKind.dir =>
      match node with
      | PyVal.dict es => some (PyVal.dict (setKey es leaf dirNode))
      | PyVal.str _ => none

/-- Load one archive entry: split the name on `"/"`, create missing
parents as fresh empty dictionaries, and write the leaf node. -/
def loadEntry (fs : Entries) (e : TarEntry) : Option Entries :=
  let parts := pySplit '/' e.name
  match sdWalk (PyVal.dict fs) parts.dropLast
      (writeLeaf e.kind (parts.getLastD "")) with
  | some (PyVal.dict fs1) => some fs1
  | _ => none

/-- `load_tar`: process the members in order, starting from the empty
root dictionary; `none` when loading raises. -/
def loadEntries (es : List TarEntry) : Option Entries :=
  go [] es
where
  go : Entries → List TarEntry → Option Entries
    | fs, [] => some fs
    | fs, e :: rest =>
        match loadEntry fs e with
        | some fs1 => go fs1 rest
        | none => none

/-! ## The content rewrite of `uniq`: `splitlines`, first-occurrence
deduplication, `"\n".join` -/

/-- The line-break characters of `str.splitlines()`. -/
def isLB (c : Char) : Bool :=
  c = '\n' || c = '\x0d' || c = '\x0b' || c = '\x0c' ||
  c = '\x1c' || c = '\x1d' || c = '\x1e' || c = '\x85' ||
  c = '\u2028' || c = '\u2029'

/-- `s.splitlines()` on character lists: split at line breaks (treating
`"\r\n"` as one break), with no trailing empty line for a terminal
break. -/
def splitlinesL : List Char → List (List Char)
  | [] => []
  | [c] => if isLB c then [[]] else [[c]]
  | c :: c2 :: rest =>
      if isLB c then
        if c = '\x0d' ∧ c2 = '\n' then [] :: splitlinesL rest
        else [] :: splitlinesL (c2 :: rest)
      else
        match splitlinesL (c2 :: rest) with
        | [] => [[c]]
        | l :: ls => (c :: l) :: ls

/-- `"\n".join` on character-list lines. -/
def joinNLL : List (List Char) → List Char
  | [] => []
  | [l] => l
  | l :: ls => l ++ '\n' :: joinNLL ls

/-- `sorted(set(lines), key=lines.index)`: the distinct lines in order of
first occurrence (`seen` accumulates the lines already emitted). -/
def dedupFirstGo {α : Type} [DecidableEq α] : List α → List α → List α
  | _, [] => []
  | seen, a :: l =>
      if a ∈ seen then dedupFirstGo seen l else a :: dedupFirstGo (a :: seen) l

/-- First-occurrence deduplication. -/
def dedupFirst {α : Type} [DecidableEq α] (l : List α) : List α :=
  dedupFirstGo [] l

/-- The content rewrite `uniq` performs:
`"\n".join(sorted(set(content.splitlines()), key=lines.index))`. -/
def uniqContentL (c : List Char) : List Char :=
  joinNLL (dedupFirst (splitlinesL c))

/-- `uniqContentL` on strings. -/
def uniqContent (c : String) : String :=
  (uniqContentL c.data).asString

/-! ## The session: log, state, and the command handlers -/

/-- One record of `log_actions` (§ LogEntry).  The `timestamp` field
(`datetime.now().isoformat()`, wall clock) is outside the embedding; the
remaining fields are as appended by `ShellEmulator.log`. -/
structure LogEntry where
  command : String
  status : String
  message : String
deriving DecidableEq

/-- The mutable fields of `ShellEmulator` the commands touch. -/
structure ShellState where
  fs : Entries
  current_path : String
  log_actions : List LogEntry
  current_user : String

/-- The observable result of dispatching one input line: the new state,
the lines printed, whether `exit()` was reached, and whether an uncaught
exception escaped the handler (in which case nothing was logged). -/
structure ExecOut where
  st : ShellState
  out : List String
  exited : Bool
  crashed : Bool

/-- `self.log(command, status, message)`. -/
def appendLog (st : ShellState) (command status message : String) : ShellState :=
  { st with log_actions := st.log_actions ++ [⟨command, status, message⟩] }

/-- `ShellEmulator.ls`: resolve the *current path*; error unless the
result is a dictionary (`traverse_path` only ever returns dictionaries,
so this is the `None` check); print every key of the dictionary. -/
def ls (st : ShellState) : ExecOut :=
  match traverse_path st.fs st.current_path with
  | none => ⟨appendLog st "ls" "error" "Not a directory", ["Not a directory"], false, false⟩
  | some node => ⟨appendLog st "ls" "success" "", keys node, false, false⟩

/-- `ShellEmulator.cd`: exactly one argument; join the argument onto the
current path, normalize, and resolve; any resolved node (directory *or*
file — the code only checks for `None`) becomes the new current path. -/
def cd (st : ShellState) (args : List String) : ExecOut :=
  match args with
  | [path] =>
      let new_path := normpath (pjoin st.current_path path)
      match traverse_path st.fs new_path with
      | none =>
          ⟨appendLog st "cd" "error" "No such directory",
            ["No such directory: " ++ path], false, false⟩
      | some _ =>
          ⟨appendLog { st with current_path := new_path }
              ("cd " ++ path) "success" "", [], false, false⟩
  | _ => ⟨appendLog st "cd" "error" "Invalid arguments", ["Usage: cd <path>"], false, false⟩

/-- `ShellEmulator.chown`: exactly two arguments; resolve
`os.path.join(current_path, path)` (no normalization); error when the
node is missing or has no `"owner"` key; otherwise assign
`node["owner"] = owner` in place. -/
def chown (st : ShellState) (args : List String) : ExecOut :=
  match args with
  | [owner, path] =>
      let p := pjoin st.current_path path
      match traverse_path st.fs p with
      | none =>
          ⟨appendLog st "chown" "error" "No such file or directory",
            ["No such file or directory: " ++ path], false, false⟩
      | some node =>
          if (lookup node "owner").isNone then
            ⟨appendLog st "chown" "error" "Cannot change owner",
              ["Cannot change owner of " ++ path], false, false⟩
          else
            let fs1 := updAtPath st.fs p (fun d => setKey d "owner" (PyVal.str owner))
            ⟨appendLog { st with fs := fs1 }
                ("chown " ++ owner ++ " " ++ path) "success" "",
              ["Owner of " ++ path ++ " changed to " ++ owner], false, false⟩
  | _ =>
      ⟨appendLog st "chown" "error" "Invalid arguments",
        ["Usage: chown <owner> <path>"], false, false⟩

/-- `ShellEmulator.who`. -/
def who (st : ShellState) : ExecOut :=
  ⟨appendLog st "who" "success" "", ["User: " ++ st.current_user], false, false⟩

/-- The test `node.get("type") == "file"` (`False` when the key is
absent or its value is not the string `"file"`). -/
def isFileTag : Option PyVal → Bool
  | some (PyVal.str s) => s = "file"
  | _ => false

/-- `ShellEmulator.uniq`: exactly one argument; resolve the *raw*
argument (from the root — no join with the current path); the node must
exist with `node.get("type") == "file"`; then rewrite
`node["content"]` with the deduplicated text and print it.  If
`node["content"]` is not a string the Python code raises
(`AttributeError`), modelled by `crashed` with nothing logged. -/
def uniq (st : ShellState) (args : List String) : ExecOut :=
  match args with
  | [path] =>
      match traverse_path st.fs path with
      | none =>
          ⟨appendLog st "uniq" "error" "No such file",
            ["No such file: " ++ path], false, false⟩
      | some node =>
          if !isFileTag (lookup node "type") then
            ⟨appendLog st "uniq" "error" "No such file",
              ["No such file: " ++ path], false, false⟩
          else
            match lookup node "content" with
            | some (PyVal.str content) =>
                let unique_lines := uniqContent content
                let fs1 := updAtPath st.fs path
                  (fun d => setKey d "content" (PyVal.str unique_lines))
                ⟨appendLog { st with fs := fs1 }
                    ("uniq " ++ path) "success" "",
                  [unique_lines], false, false⟩
            | _ => ⟨st, [], false, true⟩
  | _ =>
      ⟨appendLog st "uniq" "error" "Invalid arguments",
        ["Usage: uniq <file>"], false, false⟩

/-- `ShellEmulator.exit_shell`: `save_log()` (file I/O only, does not
touch `log_actions`) then `exit()` — no log entry is appended. -/
def exit_shell (st : ShellState) : ExecOut :=
  ⟨st, ["Session saved. Exiting..."], true, false⟩

/-- `ShellEmulator.execute_command`: tokenize the line
(`command.strip().split()`), return silently on an empty token list,
otherwise dispatch on the first token; an unknown verb logs an error
with the raw input line as the `command` field. -/
def execute_command (st : ShellState) (command : String) : ExecOut :=
  match pyWords (pyStrip command) with
  | [] => ⟨st, [], false, false⟩
  | cmd :: args =>
      if cmd = "ls" then ls st
      else if cmd = "cd" then cd st args
      else if cmd = "chown" then chown st args
      else if cmd = "who" then who st
      else if cmd = "uniq" then uniq st args
      else if cmd = "exit" then exit_shell st
      else
        ⟨appendLog st command "error" "Command not found",
          ["Command not found: " ++ cmd], false, false⟩

/-! ## Auxiliary definitions and concrete scenario states -/

/-- Lines free of line-break characters (the elements `splitlines`
produces). -/
def BF (l : List Char) : Prop := ∀ c ∈ l, isLB c = false

/-- Structural position lookup along a chain of keys (the positions the
`setdefault` chain of `load_tar` visits). -/
def getAt : Entries → List String → Option Entries
  | es, [] => some es
  | es, p :: ps =>
      match lookup es p with
      | some (PyVal.dict d) => getAt d ps
      | _ => none

/-- The `owner` value of the node stored at key `leaf` of the dictionary
reached by following `pre` from `fs`. -/
def ownerAt (fs : Entries) (pre : List String) (leaf : String) : Option PyVal :=
  match getAt fs pre with
  | some d =>
      match lookup d leaf with
      | some (PyVal.dict node) => lookup node "owner"
      | _ => none
  | none => none

/-- The `content` value of the node `path` resolves to. -/
def readContent (fs : Entries) (path : String) : Option PyVal :=
  (traverse_path fs path).bind (fun d => lookup d "content")

/-- The archive of the design document's test scenario:
`["a/" (directory), "a/f.txt" (file) -> "x\nx\ny\n"]`. -/
def entriesScenario : List TarEntry :=
  [⟨"a/", TarKind.dir⟩, ⟨"a/f.txt", TarKind.file "x\nx\ny\n"⟩]

/-- The scenario tree. -/
def fsScenario : Entries := (loadEntries entriesScenario).getD []

/-- A fresh session on the scenario tree (initial current path `"/"`,
empty log). -/
def stScenario : ShellState := ⟨fsScenario, "/", [], "alice"⟩

/-- A tree holding one file `f` at the root. -/
def fsOneFile : Entries := (loadEntries [⟨"f", TarKind.file "hello"⟩]).getD []

/-- A session over `fsOneFile` whose current path is the empty string. -/
def stOneFile : ShellState := ⟨fsOneFile, "", [], "alice"⟩

/-- A tree loaded from the single file entry `a/b`: the parent directory
`a` is created implicitly. -/
def fsNested : Entries := (loadEntries [⟨"a/b", TarKind.file "c"⟩]).getD []

/-- A session over `fsNested` whose current path is the empty string. -/
def stNested : ShellState := ⟨fsNested, "", [], "alice"⟩

/-- A tree with an explicit directory entry `a` (so its dictionary holds
the metadata keys `type` and `owner`) and a file inside it. -/
def fsDirMeta : Entries :=
  (loadEntries [⟨"a", TarKind.dir⟩, ⟨"a/f.txt", TarKind.file ""⟩]).getD []

/-- A session over `fsDirMeta` whose current path resolves to the
directory `a` (backslash path, the separator `traverse_path` uses). -/
def stDirMeta : ShellState := ⟨fsDirMeta, "\\a", [], "alice"⟩

/-- A tree holding one file `f` with duplicate-free lines and a trailing
empty line. -/
def fsTrailing : Entries := (loadEntries [⟨"f", TarKind.file "x\n\n"⟩]).getD []

/-- A fresh session over `fsTrailing`. -/
def stTrailing : ShellState := ⟨fsTrailing, "/", [], "alice"⟩

/-- A tree in which a file node has a dictionary child: the entry
`a/f.txt/b` is loaded after the file `a/f.txt` (the `setdefault` chain
happily walks into the file's dictionary). -/
def fsFileChild : Entries :=
  (loadEntries [⟨"a/f.txt", TarKind.file "c"⟩, ⟨"a/f.txt/b", TarKind.file "d"⟩]).getD []

/-- A fresh session over the empty tree. -/
def stEmpty : ShellState := ⟨[], "/", [], "guest"⟩

/-!
## Supporting lemmas

General facts about the embedded operations used by the claim theorems
below: the `splitlines`/`join`/dedup theory behind `uniq`, the
`setdefault`-chain facts behind `load_tar`, and the log-growth of each
command handler.
-/

@[simp] theorem lookup_nil (k : String) : lookup [] k = none := rfl

theorem lookup_setKey_self (es : Entries) (k : String) (v : PyVal) :
    lookup (setKey es k v) k = some v := by
  induction es with
  | nil => simp [setKey, lookup]
  | cons e es ih =>
      obtain ⟨k1, v1⟩ := e
      by_cases h : k1 = k
      · simp [setKey, h, lookup]
      · simp [setKey, h, lookup, ih]


theorem splitlinesL_nl_cons (l : List Char) :
    splitlinesL ('\n' :: l) = [] :: splitlinesL l := by
  cases l <;> simp [splitlinesL, isLB]

theorem splitlinesL_cons_bf (c : Char) (xs : List Char) (h : isLB c = false) :
    splitlinesL (c :: xs) =
      match splitlinesL xs with
      | [] => [[c]]
      | l :: ls => (c :: l) :: ls := by
  cases xs with
  | nil => simp [splitlinesL, h]
  | cons c2 rest => rw [splitlinesL.eq_def]; simp [h]

theorem splitlinesL_cons_lb_pair (rest : List Char) :
    splitlinesL ('\x0d' :: '\n' :: rest) = [] :: splitlinesL rest := by
  rw [splitlinesL.eq_def]; simp [isLB]

theorem splitlinesL_cons_lb_notpair (c c2 : Char) (rest : List Char)
    (h : isLB c = true) (h2 : ¬(c = '\x0d' ∧ c2 = '\n')) :
    splitlinesL (c :: c2 :: rest) = [] :: splitlinesL (c2 :: rest) := by
  rw [splitlinesL.eq_def]; simp [h, h2]

theorem splitlinesL_append_nl (l rest : List Char) (h : BF l) :
    splitlinesL (l ++ '\n' :: rest) = l :: splitlinesL rest := by
  induction l with
  | nil => simpa using splitlinesL_nl_cons rest
  | cons c l ih =>
      have hc : isLB c = false := h c (by simp)
      have hl : BF l := fun d hd => h d (by simp [hd])
      rw [List.cons_append, splitlinesL_cons_bf c _ hc, ih hl]

theorem splitlinesL_bf_ne (l : List Char) (h : BF l) (hne : l ≠ []) :
    splitlinesL l = [l] := by
  induction l with
  | nil => exact absurd rfl hne
  | cons c l ih =>
      have hc : isLB c = false := h c (by simp)
      rw [splitlinesL_cons_bf c l hc]
      cases l with
      | nil => rfl
      | cons c2 l2 =>
          rw [ih (fun d hd => h d (by simp [hd])) (by simp)]

theorem joinNLL_cons (l : List Char) (ls : List (List Char)) (h : ls ≠ []) :
    joinNLL (l :: ls) = l ++ '\n' :: joinNLL ls := by
  cases ls with
  | nil => exact absurd rfl h
  | cons l2 ls2 => simp [joinNLL]

theorem splitlinesL_joinNLL (L : List (List Char)) (hbf : ∀ l ∈ L, BF l)
    (hlast : L.getLast? ≠ some []) : splitlinesL (joinNLL L) = L := by
  induction L with
  | nil => rfl
  | cons l L ih =>
      cases L with
      | nil =>
          have hne : l ≠ [] := by
            intro h2; apply hlast; simp [h2]
          simpa [joinNLL] using splitlinesL_bf_ne l (hbf l (by simp)) hne
      | cons l2 L2 =>
          rw [joinNLL_cons l (l2 :: L2) (by simp),
            splitlinesL_append_nl l _ (hbf l (by simp)),
            ih (fun d hd => hbf d (by simp [hd])) (by simpa using hlast)]

theorem splitlinesL_joinNLL_nl (M : List (List Char)) (hbf : ∀ l ∈ M, BF l)
    (h : M ≠ []) : splitlinesL (joinNLL M ++ ['\n']) = M := by
  induction M with
  | nil => exact absurd rfl h
  | cons l M ih =>
      cases M with
      | nil => simpa [joinNLL] using splitlinesL_append_nl l [] (hbf l (by simp))
      | cons l2 M2 =>
          rw [joinNLL_cons l (l2 :: M2) (by simp)]
          have hassoc : (l ++ '\n' :: joinNLL (l2 :: M2)) ++ ['\n'] =
              l ++ '\n' :: (joinNLL (l2 :: M2) ++ ['\n']) := by simp
          rw [hassoc, splitlinesL_append_nl l _ (hbf l (by simp)),
            ih (fun d hd => hbf d (by simp [hd])) (by simp)]

theorem joinNLL_concat_nil (M : List (List Char)) (h : M ≠ []) :
    joinNLL (M ++ [[]]) = joinNLL M ++ ['\n'] := by
  induction M with
  | nil => exact absurd rfl h
  | cons l M ih =>
      cases M with
      | nil => rfl
      | cons l2 M2 =>
          rw [List.cons_append, joinNLL_cons l ((l2 :: M2) ++ [[]]) (by simp),
            joinNLL_cons l (l2 :: M2) (by simp), ih (by simp)]
          simp

theorem bf_splitlinesL (s : List Char) : ∀ l ∈ splitlinesL s, BF l := by
  induction s using splitlinesL.induct with
  | case1 => simp [splitlinesL]
  | case2 c h => simp [splitlinesL, h, BF]
  | case3 c h =>
      simp only [splitlinesL, if_neg h, List.mem_singleton]
      intro l hl
      subst hl
      intro d hd
      simp only [List.mem_singleton] at hd
      subst hd
      simpa using h
  | case4 c c2 rest h1 h2 ih =>
      obtain ⟨rfl, rfl⟩ := h2
      rw [splitlinesL_cons_lb_pair rest]
      intro l hl
      rcases List.mem_cons.mp hl with rfl | hl
      · intro d hd; simp at hd
      · exact ih l hl
  | case5 c c2 rest h1 h2 ih =>
      rw [splitlinesL_cons_lb_notpair c c2 rest h1 h2]
      intro l hl
      rcases List.mem_cons.mp hl with rfl | hl
      · intro d hd; simp at hd
      · exact ih l hl
  | case6 c c2 rest h1 hsp ih =>
      rw [splitlinesL_cons_bf c _ (by simpa using h1), hsp]
      intro l hl
      simp only [List.mem_singleton] at hl
      subst hl
      intro d hd
      simp only [List.mem_singleton] at hd
      subst hd
      simpa using h1
  | case7 c c2 rest h1 l ls hsp ih =>
      rw [splitlinesL_cons_bf c _ (by simpa using h1), hsp]
      intro m hm
      rcases List.mem_cons.mp hm with rfl | hm
      · intro d hd
        rcases List.mem_cons.mp hd with rfl | hd
        · simpa using h1
        · exact ih l (by rw [hsp]; simp) d hd
      · exact ih m (by rw [hsp]; simp [hm])

theorem mem_dedupFirstGo {α : Type} [DecidableEq α] (seen l : List α) (x : α)
    (h : x ∈ dedupFirstGo seen l) : x ∈ l ∧ x ∉ seen := by
  induction l generalizing seen with
  | nil => simp [dedupFirstGo] at h
  | cons a l ih =>
      by_cases ha : a ∈ seen
      · simp only [dedupFirstGo, if_pos ha] at h
        obtain ⟨h1, h2⟩ := ih seen h
        exact ⟨by simp [h1], h2⟩
      · simp only [dedupFirstGo, if_neg ha] at h
        rcases List.mem_cons.mp h with rfl | h
        · exact ⟨by simp, ha⟩
        · obtain ⟨h1, h2⟩ := ih (a :: seen) h
          refine ⟨by simp [h1], fun hc => h2 (by simp [hc])⟩

theorem nodup_dedupFirstGo {α : Type} [DecidableEq α] (seen l : List α) :
    (dedupFirstGo seen l).Nodup := by
  induction l generalizing seen with
  | nil => simp [dedupFirstGo]
  | cons a l ih =>
      by_cases ha : a ∈ seen
      · simpa [dedupFirstGo, if_pos ha] using ih seen
      · simp only [dedupFirstGo, if_neg ha]
        refine List.nodup_cons.mpr ⟨fun hc => ?_, ih (a :: seen)⟩
        have := (mem_dedupFirstGo (a :: seen) l a hc).2
        simp at this

theorem dedupFirstGo_eq_self {α : Type} [DecidableEq α] (seen l : List α)
    (hnd : l.Nodup) (hdisj : ∀ x ∈ l, x ∉ seen) : dedupFirstGo seen l = l := by
  induction l generalizing seen with
  | nil => rfl
  | cons a l ih =>
      obtain ⟨hal, hl⟩ := List.nodup_cons.mp hnd
      have ha : a ∉ seen := hdisj a (by simp)
      simp only [dedupFirstGo, if_neg ha]
      rw [ih (a :: seen) hl]
      intro x hx
      intro hc
      rcases List.mem_cons.mp hc with rfl | hc
      · exact hal hx
      · exact hdisj x (by simp [hx]) hc

theorem nodup_dedupFirst {α : Type} [DecidableEq α] (l : List α) :
    (dedupFirst l).Nodup := nodup_dedupFirstGo [] l

theorem mem_of_mem_dedupFirst {α : Type} [DecidableEq α] {l : List α} {x : α}
    (h : x ∈ dedupFirst l) : x ∈ l := (mem_dedupFirstGo [] l x h).1

theorem dedupFirst_eq_self {α : Type} [DecidableEq α] (l : List α)
    (h : l.Nodup) : dedupFirst l = l :=
  dedupFirstGo_eq_self [] l h (by simp)

theorem uniqContentL_joinNLL_fix (L : List (List Char)) (hnd : L.Nodup)
    (hbf : ∀ l ∈ L, BF l) (hlast : L.getLast? ≠ some []) :
    uniqContentL (joinNLL L) = joinNLL L := by
  unfold uniqContentL
  rw [splitlinesL_joinNLL L hbf hlast, dedupFirst_eq_self L hnd]

/-- Applying the uniq rewrite twice reaches a fixed point. -/
theorem uniqContentL_third (c : List Char) :
    uniqContentL (uniqContentL (uniqContentL c)) =
      uniqContentL (uniqContentL c) := by
  have h1 : uniqContentL c = joinNLL (dedupFirst (splitlinesL c)) := rfl
  set L := dedupFirst (splitlinesL c) with hLdef
  have hnd : L.Nodup := nodup_dedupFirst _
  have hbf : ∀ l ∈ L, BF l := fun l hl =>
    bf_splitlinesL c l (mem_of_mem_dedupFirst hl)
  rcases List.eq_nil_or_concat L with hnil | ⟨M, x, hMx⟩
  all_goals try rw [List.concat_eq_append] at hMx
  · rw [h1, hnil]
    rfl
  · by_cases hx : x = []
    · subst hx
      have hnotin : [] ∉ M := by
        rw [hMx] at hnd
        intro hc
        rcases List.nodup_append.mp hnd with ⟨-, -, hdisj⟩
        exact hdisj hc (by simp)
      cases M with
      | nil =>
          rw [h1, hMx]
          rfl
      | cons m M2 =>
          have hMne : (m :: M2) ≠ [] := by simp
          have hbfM : ∀ l ∈ m :: M2, BF l := fun l hl =>
            hbf l (by rw [hMx]; exact List.mem_append_left _ hl)
          have hndM : (m :: M2).Nodup := by
            rw [hMx] at hnd
            exact (List.nodup_append.mp hnd).1
          have hjoin : joinNLL L = joinNLL (m :: M2) ++ ['\n'] := by
            rw [hMx]; exact joinNLL_concat_nil _ hMne
          have h2 : uniqContentL (uniqContentL c) = joinNLL (m :: M2) := by
            rw [h1, hjoin]
            unfold uniqContentL
            rw [splitlinesL_joinNLL_nl _ hbfM hMne, dedupFirst_eq_self _ hndM]
          have hMlast : (m :: M2).getLast? ≠ some [] := by
            intro hc
            have hmem0 : ([] : List Char) ∈ (m :: M2).getLast? := by
              rw [Option.mem_def, hc]
            obtain ⟨hne2, heq⟩ := List.mem_getLast?_eq_getLast hmem0
            exact hnotin (heq ▸ List.getLast_mem hne2)
          have h3 : uniqContentL (joinNLL (m :: M2)) = joinNLL (m :: M2) :=
            uniqContentL_joinNLL_fix _ hndM hbfM hMlast
          rw [h2]
          exact h3
    · have hlast : L.getLast? ≠ some [] := by
        rw [hMx, List.getLast?_append_of_ne_nil M (by simp)]
        simpa using hx
      have h2 : uniqContentL (uniqContentL c) = uniqContentL c := by
        conv_lhs => rw [h1]
        rw [uniqContentL_joinNLL_fix L hnd hbf hlast, h1]
      rw [h2]
      exact h2

theorem asString_data (l : List Char) : (List.asString l).data = l := rfl

theorem joinNLL_concat (M : List (List Char)) (x : List Char) :
    joinNLL (M ++ [x]) = if M = [] then x else joinNLL M ++ '\n' :: x := by
  induction M with
  | nil => rfl
  | cons l M ih =>
      cases M with
      | nil => rfl
      | cons l2 M2 =>
          rw [List.cons_append, joinNLL_cons l ((l2 :: M2) ++ [x]) (by simp),
            joinNLL_cons l (l2 :: M2) (by simp), ih]
          simp

theorem isLB_not_mem_bf {x : List Char} (hbf : BF x) (h : x.getLast? = some '\n') :
    False := by
  have hmem0 : ('\n' : Char) ∈ x.getLast? := by rw [Option.mem_def, h]
  obtain ⟨hne, heq⟩ := List.mem_getLast?_eq_getLast hmem0
  have : isLB '\n' = false := hbf '\n' (heq ▸ List.getLast_mem hne)
  simp [isLB] at this

theorem joinNLL_getLast_nl {L : List (List Char)} (hbf : ∀ l ∈ L, BF l)
    (h : (joinNLL L).getLast? = some '\n') : ∃ M, L = M ++ [[]] := by
  rcases List.eq_nil_or_concat L with hnil | ⟨M, x, hMx⟩
  · rw [hnil] at h; simp [joinNLL] at h
  · rw [List.concat_eq_append] at hMx
    by_cases hx : x = []
    · exact ⟨M, by rw [hMx, hx]⟩
    · exfalso
      rw [hMx, joinNLL_concat] at h
      have hbfx : BF x := hbf x (by rw [hMx]; simp)
      by_cases hM : M = []
      · rw [if_pos hM] at h
        exact isLB_not_mem_bf hbfx h
      · rw [if_neg hM] at h
        rw [List.getLast?_append_of_ne_nil _ (by simp)] at h
        have hx2 : ('\n' :: x).getLast? = x.getLast? := by
          rw [show ('\n' :: x) = ['\n'] ++ x from rfl,
            List.getLast?_append_of_ne_nil _ hx]
        rw [hx2] at h
        exact isLB_not_mem_bf hbfx h

/-- On content whose lines are already duplicate-free but which ends in a
newline, the uniq rewrite still changes the content. -/
theorem uniqContentL_ne_of_trailing_nl (c : List Char)
    (hnd : (splitlinesL c).Nodup) (hnl : c.getLast? = some '\n') :
    uniqContentL c ≠ c := by
  intro heq
  have hbf : ∀ l ∈ splitlinesL c, BF l := bf_splitlinesL c
  have hjoin : joinNLL (splitlinesL c) = c := by
    have : uniqContentL c = joinNLL (splitlinesL c) := by
      unfold uniqContentL
      rw [dedupFirst_eq_self _ hnd]
    rw [← this, heq]
  obtain ⟨M, hM⟩ := joinNLL_getLast_nl hbf (by rw [hjoin]; exact hnl)
  have hnotin : [] ∉ M := by
    rw [hM] at hnd
    intro hc
    rcases List.nodup_append.mp hnd with ⟨-, -, hdisj⟩
    exact hdisj hc (by simp)
  by_cases hMnil : M = []
  · rw [hMnil] at hM
    rw [hM] at hjoin
    simp [joinNLL] at hjoin
    rw [hjoin] at hnl
    simp at hnl
  · have hbfM : ∀ l ∈ M, BF l := fun l hl => hbf l (by rw [hM]; exact List.mem_append_left _ hl)
    have hsplit : splitlinesL c = M := by
      have hcval : c = joinNLL M ++ ['\n'] := by
        rw [← hjoin, hM, joinNLL_concat, if_neg hMnil]
      rw [hcval]
      exact splitlinesL_joinNLL_nl M hbfM hMnil
    rw [hM] at hsplit
    have := congrArg List.length hsplit
    simp at this

theorem sdWalk_setKey_ownerAt (W : PyVal) (wes : Entries)
    (hWeq : W = PyVal.dict wes)
    (hWown : lookup wes "owner" = some (PyVal.str "root")) (leaf : String)
    (k : PyVal → Option PyVal)
    (hkd : ∀ es0, k (PyVal.dict es0) = some (PyVal.dict (setKey es0 leaf W)))
    (hks : ∀ s, k (PyVal.str s) = none) :
    ∀ (pre : List String) (es : Entries) (out : PyVal),
      sdWalk (PyVal.dict es) pre k = some out →
      ∃ res, out = PyVal.dict res ∧ ownerAt res pre leaf = some (PyVal.str "root") := by
  intro pre
  induction pre with
  | nil =>
      intro es out h
      simp only [sdWalk, hkd] at h
      refine ⟨setKey es leaf W, (Option.some.inj h).symm, ?_⟩
      simp only [ownerAt, getAt, lookup_setKey_self, hWeq, hWown]
  | cons p ps ih =>
      intro es out h
      simp only [sdWalk] at h
      rcases hc : lookup es p with _ | child
      all_goals rw [hc] at h
      · simp only [Option.getD_none] at h
        simp at h
        obtain ⟨a, ha, hout⟩ := h
        obtain ⟨res2, rfl, hown⟩ := ih [] a ha
        refine ⟨setKey es p (PyVal.dict res2), hout.symm, ?_⟩
        simp only [ownerAt, getAt, lookup_setKey_self]
        simpa [ownerAt] using hown
      · rcases child with s | ces
        · exfalso
          have hnone : sdWalk (PyVal.str s) ps k = none := by
            rcases ps with _ | ⟨q, qs⟩ <;> simp [sdWalk, hks]
          simp [hnone] at h
        · simp only [Option.getD_some] at h
          simp at h
          obtain ⟨a, ha, hout⟩ := h
          obtain ⟨res2, rfl, hown⟩ := ih ces a ha
          refine ⟨setKey es p (PyVal.dict res2), hout.symm, ?_⟩
          simp only [ownerAt, getAt, lookup_setKey_self]
          simpa [ownerAt] using hown

theorem loadEntry_leaf_owner (fs : Entries) (e : TarEntry) (fs1 : Entries)
    (hload : loadEntry fs e = some fs1) (hkind : e.kind ≠ TarKind.other) :
    ownerAt fs1 (pySplit '/' e.name).dropLast ((pySplit '/' e.name).getLastD "") =
      some (PyVal.str "root") := by
  rcases hk : e.kind with c | _ | _
  all_goals rw [loadEntry, hk] at hload
  · rcases hw : sdWalk (PyVal.dict fs) (pySplit '/' e.name).dropLast
        (writeLeaf (TarKind.file c) ((pySplit '/' e.name).getLastD "")) with _ | out
    · rw [hw] at hload; simp at hload
    · rw [hw] at hload
      obtain ⟨res, rfl, hown⟩ :=
        sdWalk_setKey_ownerAt (fileNode c) _ rfl (by rfl) _ _
          (fun es0 => rfl) (fun s => rfl) _ fs out hw
      obtain rfl : res = fs1 := by simpa using hload
      exact hown
  · rcases hw : sdWalk (PyVal.dict fs) (pySplit '/' e.name).dropLast
        (writeLeaf TarKind.dir ((pySplit '/' e.name).getLastD "")) with _ | out
    · rw [hw] at hload; simp at hload
    · rw [hw] at hload
      obtain ⟨res, rfl, hown⟩ :=
        sdWalk_setKey_ownerAt dirNode _ rfl (by rfl) _ _
          (fun es0 => rfl) (fun s => rfl) _ fs out hw
      obtain rfl : res = fs1 := by simpa using hload
      exact hown
  · exact absurd hk hkind

theorem sdWalk_missing (es : Entries) (p : String) (ps : List String)
    (k : PyVal → Option PyVal) (h : lookup es p = none) :
    sdWalk (PyVal.dict es) (p :: ps) k =
      (sdWalk (PyVal.dict []) ps k).map (fun c => PyVal.dict (setKey es p c)) := by
  simp [sdWalk, h]

theorem ls_log (st : ShellState) :
    (ls st).st.log_actions.length = st.log_actions.length + 1 ∧
      (ls st).crashed = false := by
  unfold ls
  rcases h : traverse_path st.fs st.current_path with _ | node <;>
    simp [h, appendLog]

theorem cd_log (st : ShellState) (args : List String) :
    (cd st args).st.log_actions.length = st.log_actions.length + 1 ∧
      (cd st args).crashed = false := by
  unfold cd
  rcases args with _ | ⟨p, _ | ⟨q, r⟩⟩
  · simp [appendLog]
  · rcases h : traverse_path st.fs (normpath (pjoin st.current_path p)) with _ | node <;>
      simp [h, appendLog]
  · simp [appendLog]

theorem chown_log (st : ShellState) (args : List String) :
    (chown st args).st.log_actions.length = st.log_actions.length + 1 ∧
      (chown st args).crashed = false := by
  unfold chown
  rcases args with _ | ⟨o, _ | ⟨p, _ | ⟨q, r⟩⟩⟩
  · simp [appendLog]
  · simp [appendLog]
  · rcases htr : traverse_path st.fs (pjoin st.current_path p) with _ | node
    · simp [htr, appendLog]
    · by_cases h : (lookup node "owner").isNone <;> simp [htr, h, appendLog]
  · simp [appendLog]

theorem who_log (st : ShellState) :
    (who st).st.log_actions.length = st.log_actions.length + 1 ∧
      (who st).crashed = false := by
  simp [who, appendLog]

theorem uniq_log (st : ShellState) (args : List String) :
    (uniq st args).st.log_actions.length =
      st.log_actions.length + (if (uniq st args).crashed then 0 else 1) := by
  unfold uniq
  rcases args with _ | ⟨p, _ | ⟨q, r⟩⟩
  · simp [appendLog]
  · rcases htr : traverse_path st.fs p with _ | node
    · simp [htr, appendLog]
    · by_cases h : isFileTag (lookup node "type")
      · rcases hco : lookup node "content" with _ | ⟨s | d⟩ <;>
          simp [htr, h, hco, appendLog]
      · simp [htr, h, appendLog]
  · simp [appendLog]

theorem exit_log (st : ShellState) :
    (exit_shell st).st.log_actions.length = st.log_actions.length ∧
      (exit_shell st).crashed = false := by
  simp [exit_shell]

theorem walk_updWalk (parts : List String) :
    ∀ (es node : Entries) (f : Entries → Entries),
      walk es parts = some node →
      walk (updWalk es parts f) parts = some (f node) := by
  induction parts with
  | nil =>
      intro es node f h
      obtain rfl : es = node := Option.some.inj h
      rfl
  | cons p ps ih =>
      intro es node f h
      by_cases hp : p = ""
      · simp only [walk, updWalk, if_pos hp] at h ⊢
        exact ih es node f h
      · simp only [walk, updWalk, if_neg hp] at h ⊢
        rcases hc : lookup es p with _ | ⟨str | d⟩
        all_goals rw [hc] at h
        · simp at h
        · simp at h
        · rw [lookup_setKey_self]
          exact ih d node f h

/-!
## Claim theorems

One theorem per claim of the specification review, with counterexamples
and witnesses where required.
-/

/-- C1 (counterexample): dispatching the non-empty line `exit` appends no
LogEntry at all — `exit_shell` calls `save_log` and `exit()` without
logging — refuting "exactly one LogEntry is appended ... including
`exit`". -/
theorem exit_dispatch_logs_nothing :
    (execute_command stEmpty "exit").st.log_actions = [] ∧
      (execute_command stEmpty "exit").exited = true :=
  ⟨rfl, rfl⟩

/-- C1 (amended): each dispatched non-empty input line appends exactly
one LogEntry before control returns, EXCEPT `exit` (which flushes the log
and terminates without appending) and a line whose handler raises an
uncaught exception (`crashed`; possible only for `uniq` on a file node
whose content is not a string), which append none; an empty line appends
nothing. -/
theorem dispatch_log_growth (st : ShellState) (command : String) :
    (execute_command st command).st.log_actions.length =
      st.log_actions.length +
        (match pyWords (pyStrip command) with
         | [] => 0
         | cmd :: _ =>
             if cmd = "exit" then 0
             else if (execute_command st command).crashed then 0 else 1) := by
  rcases h : pyWords (pyStrip command) with _ | ⟨cmd, args⟩
  · simp [execute_command, h]
  · simp only [execute_command, h]
    by_cases h1 : cmd = "ls"
    · subst h1; simp [ls_log st]
    by_cases h2 : cmd = "cd"
    · subst h2; simp [cd_log st args]
    by_cases h3 : cmd = "chown"
    · subst h3; simp [chown_log st args]
    by_cases h4 : cmd = "who"
    · subst h4; simp [who_log st]
    by_cases h5 : cmd = "uniq"
    · subst h5; simp [uniq_log st args]
    by_cases h6 : cmd = "exit"
    · subst h6; simp [exit_log st]
    · simp [h1, h2, h3, h4, h5, h6, appendLog]

/-- C2 (counterexample): with the file `f` at the root and current path
`""`, the resolved target of `cd f` is a File node (its `type` tag is
`"file"`), yet no NoSuchDirectory error is reported: the command logs
success and the current path changes to `"f"`.  The code checks the
resolution only against `None`, never that the target is a directory. -/
theorem cd_into_file_succeeds :
    traverse_path stOneFile.fs (normpath (pjoin stOneFile.current_path "f")) =
      some [("type", PyVal.str "file"), ("content", PyVal.str "hello"),
            ("owner", PyVal.str "root")] ∧
    (cd stOneFile ["f"]).st.current_path = "f" ∧
    (cd stOneFile ["f"]).st.log_actions = [⟨"cd f", "success", ""⟩] :=
  ⟨rfl, rfl, rfl⟩

/-- C2 (amended): for every current path and single-argument `cd`, if
resolving the normalized join of current path and argument fails, the
command reports `No such directory` and the current path is unchanged;
if ANY node is resolved — Directory or File alike, no directory check is
performed — the current path becomes the normalized target. -/
theorem cd_contract (st : ShellState) (arg : String) :
    (traverse_path st.fs (normpath (pjoin st.current_path arg)) = none →
        (cd st [arg]).st.current_path = st.current_path ∧
        (cd st [arg]).st.fs = st.fs ∧
        (cd st [arg]).st.log_actions =
          st.log_actions ++ [⟨"cd", "error", "No such directory"⟩]) ∧
    (∀ node, traverse_path st.fs (normpath (pjoin st.current_path arg)) = some node →
        (cd st [arg]).st.current_path = normpath (pjoin st.current_path arg) ∧
        (cd st [arg]).st.fs = st.fs ∧
        (cd st [arg]).st.log_actions =
          st.log_actions ++ [⟨"cd " ++ arg, "success", ""⟩]) := by
  constructor
  · intro h
    simp [cd, h, appendLog]
  · intro node h
    simp [cd, h, appendLog]

/-- C2 (witness): `cd_contract` at two concrete inputs — the failing
resolution on the empty tree and the successful resolution onto the file
`f`. -/
theorem cd_contract_witness :
    ((cd stEmpty ["a"]).st.current_path = stEmpty.current_path ∧
     (cd stEmpty ["a"]).st.fs = stEmpty.fs ∧
     (cd stEmpty ["a"]).st.log_actions =
       stEmpty.log_actions ++ [⟨"cd", "error", "No such directory"⟩]) ∧
    ((cd stOneFile ["f"]).st.current_path =
       normpath (pjoin stOneFile.current_path "f") ∧
     (cd stOneFile ["f"]).st.fs = stOneFile.fs ∧
     (cd stOneFile ["f"]).st.log_actions =
       stOneFile.log_actions ++ [⟨"cd f", "success", ""⟩]) :=
  ⟨(cd_contract stEmpty "a").1 rfl, (cd_contract stOneFile "f").2 _ rfl⟩

/-- C3 (counterexample): loading the single entry `a/b` (a file) creates
the parent directory `a` implicitly as an empty mapping; in the loaded
tree the node `a` has NO `owner` attribute, refuting "every node —
including implicitly created parents — has its owner set to the fixed
default". -/
theorem implicit_dir_has_no_owner :
    loadEntries [⟨"a/b", TarKind.file "c"⟩] = some fsNested ∧
    traverse_path fsNested "a" = some [("b", fileNode "c")] ∧
    lookup [("b", fileNode "c")] "owner" = none :=
  ⟨rfl, rfl, rfl⟩

/-- C3 (amended): after a successful load step for a `file` or
`directory` entry, the node written at the entry's final path segment has
owner `"root"`; parent directories created implicitly by the
`setdefault` chain, however, start as the EMPTY mapping, which carries no
`owner` attribute. -/
theorem load_owner_assignment :
    (∀ (fs : Entries) (e : TarEntry) (fs1 : Entries),
        loadEntry fs e = some fs1 → e.kind ≠ TarKind.other →
        ownerAt fs1 (pySplit '/' e.name).dropLast
          ((pySplit '/' e.name).getLastD "") = some (PyVal.str "root")) ∧
    (∀ (es : Entries) (p : String) (ps : List String) (k : PyVal → Option PyVal),
        lookup es p = none →
        sdWalk (PyVal.dict es) (p :: ps) k =
          (sdWalk (PyVal.dict []) ps k).map (fun c => PyVal.dict (setKey es p c)) ∧
        lookup ([] : Entries) "owner" = none) :=
  ⟨fun fs e fs1 h hk => loadEntry_leaf_owner fs e fs1 h hk,
   fun es p ps k h => ⟨sdWalk_missing es p ps k h, rfl⟩⟩

/-- C3 (witness): `load_owner_assignment` at concrete inputs — the load
step for the entry `a/b` from the empty tree, and the `setdefault` step
for a missing key. -/
theorem load_owner_assignment_witness :
    ownerAt [("a", PyVal.dict [("b", fileNode "x")])]
        (pySplit '/' "a/b").dropLast ((pySplit '/' "a/b").getLastD "") =
      some (PyVal.str "root") ∧
    (sdWalk (PyVal.dict []) ["q"] some =
        (sdWalk (PyVal.dict ([] : Entries)) [] some).map
          (fun c => PyVal.dict (setKey [] "q" c)) ∧
      lookup ([] : Entries) "owner" = none) :=
  ⟨load_owner_assignment.1 [] ⟨"a/b", TarKind.file "x"⟩
      [("a", PyVal.dict [("b", fileNode "x")])] rfl
      (fun h => TarKind.noConfusion h),
   load_owner_assignment.2 [] "q" [] some rfl⟩

/-- C4 (counterexample): in the tree loaded from `a/f.txt` (file) and
`a/f.txt/b` (file), resolving `a\f.txt\b` walks THROUGH the File node
`a/f.txt` (its `type` tag is `"file"`, and the segment is non-terminal)
and returns the inner node instead of NotFound. -/
theorem resolution_descends_through_file :
    loadEntries [⟨"a/f.txt", TarKind.file "c"⟩, ⟨"a/f.txt/b", TarKind.file "d"⟩] =
      some fsFileChild ∧
    (traverse_path fsFileChild "a\\f.txt").bind (fun d => lookup d "type") =
      some (PyVal.str "file") ∧
    traverse_path fsFileChild "a\\f.txt\\b" =
      some [("type", PyVal.str "file"), ("content", PyVal.str "d"),
            ("owner", PyVal.str "root")] :=
  ⟨rfl, rfl, rfl⟩

/-- C4 (amended): resolution handles each nonempty segment as follows —
an absent key or a string-valued key stops the walk immediately with
NotFound; a dictionary-valued key (including the dictionary of a File
node, whose mapping holds its metadata and any loaded children) is
descended into, and the walk continues. -/
theorem resolution_step_contract (es : Entries) (p : String) (ps : List String)
    (hp : p ≠ "") :
    walk es (p :: ps) =
      (match lookup es p with
       | some (PyVal.dict d) => walk d ps
       | _ => none) := by
  simp [walk, hp]

/-- C4 (witness): `resolution_step_contract` at a concrete input whose
segment maps to a string value. -/
theorem resolution_step_contract_witness :
    walk [("a", PyVal.str "x")] ["a"] =
      (match lookup [("a", PyVal.str "x")] "a" with
       | some (PyVal.dict d) => walk d []
       | _ => none) :=
  resolution_step_contract [("a", PyVal.str "x")] "a" [] (by decide)

/-- C5 (counterexample): on the scenario tree, `cd a` FAILS — the new
path "/a" is built with forward slashes by `os.path`, while
`traverse_path` splits on backslashes — leaving the current path `"/"`
and logging an error, refuting "cd a succeeds and makes the current path
/a". -/
theorem scenario_cd_a_fails :
    loadEntries entriesScenario = some fsScenario ∧
    (execute_command stScenario "cd a").st.current_path = "/" ∧
    (execute_command stScenario "cd a").st.log_actions =
      [⟨"cd", "error", "No such directory"⟩] :=
  ⟨rfl, rfl, rfl⟩

/-- C5 (amended): on the scenario tree, `cd a` fails with
`No such directory` (current path stays `"/"`); `uniq f.txt` fails with
`No such file` (the argument is resolved from the root, where `f.txt` is
absent); the backslash path `uniq a\f.txt` succeeds, printing `x\ny` and
storing `x\ny` as the file's content, and running it a second time
prints and stores `x\ny` again. -/
theorem scenario_cd_uniq_actual :
    (execute_command stScenario "cd a").st.current_path = "/" ∧
    (execute_command stScenario "uniq f.txt").st.log_actions =
      [⟨"uniq", "error", "No such file"⟩] ∧
    (execute_command stScenario "uniq a\\f.txt").out = ["x\ny"] ∧
    readContent (execute_command stScenario "uniq a\\f.txt").st.fs "a\\f.txt" =
      some (PyVal.str "x\ny") ∧
    (execute_command (execute_command stScenario "uniq a\\f.txt").st
        "uniq a\\f.txt").out = ["x\ny"] ∧
    readContent (execute_command (execute_command stScenario "uniq a\\f.txt").st
        "uniq a\\f.txt").st.fs "a\\f.txt" = some (PyVal.str "x\ny") :=
  ⟨rfl, rfl, rfl, rfl, rfl, rfl⟩

/-- C6 (counterexample): for the file `f` with content `"x\n\n"` (no
duplicate lines once split: `["x", ""]`), the first `uniq f` stores
`"x\n"` but the second stores `"x"` — applying uniq twice does not yield
the same content as applying it once. -/
theorem uniq_not_idempotent :
    readContent (execute_command stTrailing "uniq f").st.fs "f" =
      some (PyVal.str "x\n") ∧
    readContent (execute_command (execute_command stTrailing "uniq f").st
        "uniq f").st.fs "f" = some (PyVal.str "x") ∧
    ("x" : String) ≠ "x\n" :=
  ⟨rfl, rfl, by decide⟩

/-- C6 (amended): the uniq content rewrite is NOT idempotent — a
trailing empty line survives the first application (its newline is
re-emitted by the join) and is dropped only by the next one — but two
applications always reach a fixed point: a third application returns the
content of the second unchanged. -/
theorem uniq_twice_fixpoint (c : String) :
    uniqContent (uniqContent (uniqContent c)) = uniqContent (uniqContent c) := by
  simp only [uniqContent, asString_data]
  exact congrArg List.asString (uniqContentL_third c.data)

/-- C7 (counterexample): the explicit directory `a` stores its metadata
keys `type` and `owner` in the same dictionary as its children, so in a
state whose current path resolves to that Directory, `ls` produces
`["type", "owner", "f.txt"]` — `type` maps to the string `"dir"`, i.e. it
is the node's own metadata, not an immediate child node. -/
theorem ls_includes_metadata_keys :
    traverse_path stDirMeta.fs stDirMeta.current_path =
      some [("type", PyVal.str "dir"), ("owner", PyVal.str "root"),
            ("f.txt", fileNode "")] ∧
    (ls stDirMeta).out = ["type", "owner", "f.txt"] ∧
    lookup [("type", PyVal.str "dir"), ("owner", PyVal.str "root"),
        ("f.txt", fileNode "")] "type" = some (PyVal.str "dir") :=
  ⟨rfl, rfl, rfl⟩

/-- C7 (amended): when the current path resolves, `ls` prints exactly
the key list of the resolved dictionary — the immediate child names
together with the node's own metadata keys (`type`, `owner`) when
present — in dictionary insertion order, a pure function of the tree
state (deterministic); when resolution fails it reports
`Not a directory`. -/
theorem ls_lists_dict_keys (st : ShellState) :
    (∀ node, traverse_path st.fs st.current_path = some node →
        (ls st).out = keys node ∧
        (ls st).st.log_actions = st.log_actions ++ [⟨"ls", "success", ""⟩] ∧
        (ls st).st.fs = st.fs) ∧
    (traverse_path st.fs st.current_path = none →
        (ls st).out = ["Not a directory"] ∧
        (ls st).st.log_actions =
          st.log_actions ++ [⟨"ls", "error", "Not a directory"⟩] ∧
        (ls st).st.fs = st.fs) := by
  constructor
  · intro node h
    simp [ls, h, appendLog]
  · intro h
    simp [ls, h, appendLog]

/-- C7 (witness): `ls_lists_dict_keys` at a state resolving to the
metadata-carrying directory and at a state that fails to resolve. -/
theorem ls_lists_dict_keys_witness :
    ((ls stDirMeta).out =
        keys [("type", PyVal.str "dir"), ("owner", PyVal.str "root"),
              ("f.txt", fileNode "")] ∧
      (ls stDirMeta).st.log_actions =
        stDirMeta.log_actions ++ [⟨"ls", "success", ""⟩] ∧
      (ls stDirMeta).st.fs = stDirMeta.fs) ∧
    ((ls stEmpty).out = ["Not a directory"] ∧
      (ls stEmpty).st.log_actions =
        stEmpty.log_actions ++ [⟨"ls", "error", "Not a directory"⟩] ∧
      (ls stEmpty).st.fs = stEmpty.fs) :=
  ⟨(ls_lists_dict_keys stDirMeta).1 _ rfl, (ls_lists_dict_keys stEmpty).2 rfl⟩

/-- C8 (counterexample): with current path `""` over the tree loaded
from the single entry `a/b`, `chown bob a` RESOLVES the implicitly
created directory `a` — yet instead of setting its owner the command
reports `Cannot change owner` (the node has no `owner` key) and leaves
the tree unchanged, refuting "if it resolves, the resolved node's owner
attribute is set". -/
theorem chown_resolved_without_owner :
    traverse_path stNested.fs (pjoin stNested.current_path "a") =
      some [("b", fileNode "c")] ∧
    (chown stNested ["bob", "a"]).st.fs = stNested.fs ∧
    (chown stNested ["bob", "a"]).st.log_actions =
      [⟨"chown", "error", "Cannot change owner"⟩] :=
  ⟨rfl, rfl, rfl⟩

/-- C8 (amended): for `chown <owner> <path>`, if the join of current
path and `<path>` does not resolve, the command logs an error and the
tree is unchanged; if it resolves to a node WITHOUT an `owner` key (an
implicitly created directory), a `Cannot change owner` error is logged
and the tree is unchanged; if it resolves to a node carrying an `owner`
key — identically for File and Directory nodes — that node's owner is
set to `<owner>` in place. -/
theorem chown_contract (st : ShellState) (owner path : String) :
    (traverse_path st.fs (pjoin st.current_path path) = none →
        (chown st [owner, path]).st.fs = st.fs ∧
        (chown st [owner, path]).st.log_actions =
          st.log_actions ++ [⟨"chown", "error", "No such file or directory"⟩]) ∧
    (∀ node, traverse_path st.fs (pjoin st.current_path path) = some node →
        lookup node "owner" = none →
        (chown st [owner, path]).st.fs = st.fs ∧
        (chown st [owner, path]).st.log_actions =
          st.log_actions ++ [⟨"chown", "error", "Cannot change owner"⟩]) ∧
    (∀ node, traverse_path st.fs (pjoin st.current_path path) = some node →
        (lookup node "owner").isNone = false →
        (chown st [owner, path]).st.fs =
          updAtPath st.fs (pjoin st.current_path path)
            (fun d => setKey d "owner" (PyVal.str owner)) ∧
        traverse_path (chown st [owner, path]).st.fs
            (pjoin st.current_path path) =
          some (setKey node "owner" (PyVal.str owner)) ∧
        (chown st [owner, path]).st.log_actions =
          st.log_actions ++ [⟨"chown " ++ owner ++ " " ++ path, "success", ""⟩]) := by
  refine ⟨fun h => ?_, fun node h h2 => ?_, fun node h h2 => ?_⟩
  · simp [chown, h, appendLog]
  · simp [chown, h, h2, appendLog]
  · refine ⟨?_, ?_, ?_⟩
    · simp [chown, h, h2, appendLog]
    · have h3 : walk st.fs (pySplit '\\' (pyStripChar '\\' (pjoin st.current_path path))) =
          some node := by
        simpa [traverse_path] using h
      have hupd := walk_updWalk
        (pySplit '\\' (pyStripChar '\\' (pjoin st.current_path path)))
        st.fs node (fun d => setKey d "owner" (PyVal.str owner)) h3
      simp [chown, h, h2, appendLog, traverse_path, updAtPath, h3]
      simpa using hupd
    · simp [chown, h, h2, appendLog]

/-- C8 (witness): `chown_contract` at three concrete inputs — failed
resolution, resolution onto an owner-less node, and a successful owner
change. -/
theorem chown_contract_witness :
    ((chown stEmpty ["bob", "a"]).st.fs = stEmpty.fs ∧
      (chown stEmpty ["bob", "a"]).st.log_actions =
        stEmpty.log_actions ++
          [⟨"chown", "error", "No such file or directory"⟩]) ∧
    ((chown stNested ["bob", "a"]).st.fs = stNested.fs ∧
      (chown stNested ["bob", "a"]).st.log_actions =
        stNested.log_actions ++ [⟨"chown", "error", "Cannot change owner"⟩]) ∧
    ((chown stOneFile ["bob", "f"]).st.fs =
        updAtPath stOneFile.fs (pjoin stOneFile.current_path "f")
          (fun d => setKey d "owner" (PyVal.str "bob")) ∧
      traverse_path (chown stOneFile ["bob", "f"]).st.fs
          (pjoin stOneFile.current_path "f") =
        some (setKey [("type", PyVal.str "file"), ("content", PyVal.str "hello"),
            ("owner", PyVal.str "root")] "owner" (PyVal.str "bob")) ∧
      (chown stOneFile ["bob", "f"]).st.log_actions =
        stOneFile.log_actions ++ [⟨"chown bob f", "success", ""⟩]) :=
  ⟨(chown_contract stEmpty "bob" "a").1 rfl,
   (chown_contract stNested "bob" "a").2.1 _ rfl rfl,
   (chown_contract stOneFile "bob" "f").2.2 _ rfl rfl⟩

/-- C9 (confirmed): for every tree, resolving the empty path returns the
root, and resolving the path consisting solely of the resolver's
separator character (the backslash `traverse_path` strips and splits on)
also returns the root. -/
theorem empty_and_sep_resolve_root (fs : Entries) :
    traverse_path fs "" = some fs ∧ traverse_path fs "\\" = some fs :=
  ⟨rfl, rfl⟩

/-- C10 (confirmed): the success path of `uniq` unconditionally stores
the newline-join of the split lines; hence for content whose lines are
already duplicate-free but which ends with a newline character, the
stored content still changes (the terminal line break is not re-emitted
by the join). -/
theorem uniq_rewrites_trailing_newline (s : String)
    (hnd : (splitlinesL s.data).Nodup) (hnl : s.data.getLast? = some '\n') :
    uniqContent s ≠ s ∧
      uniqContentL s.data = joinNLL (splitlinesL s.data) := by
  constructor
  · intro heq
    apply uniqContentL_ne_of_trailing_nl s.data hnd hnl
    have hdata := congrArg String.data heq
    simpa [uniqContent] using hdata
  · unfold uniqContentL
    rw [dedupFirst_eq_self _ hnd]

/-- C10 (witness): `uniq_rewrites_trailing_newline` at the content
`"a\n"`. -/
theorem uniq_rewrites_trailing_newline_witness :
    (splitlinesL "a\n".data).Nodup ∧ "a\n".data.getLast? = some '\n' ∧
    uniqContent "a\n" ≠ "a\n" ∧
      uniqContentL "a\n".data = joinNLL (splitlinesL "a\n".data) := by
  refine ⟨by decide, by decide, ?_, ?_⟩
  · exact (uniq_rewrites_trailing_newline "a\n" (by decide) (by decide)).1
  · exact (uniq_rewrites_trailing_newline "a\n" (by decide) (by decide)).2


end ShellEmu
